import Mathlib

/-!
Verification development for the `collage` command-line tool (`src/main.rs`).

The program is embedded shallowly:

* `u32` arithmetic is modelled as `Nat` with an explicit `% 2^32` (`wadd`,
  `wmul`); `u64` likewise with `% 2^64`.
* Single-precision floating point is modelled exactly: an `F32` value is a
  pair `sig * 2 ^ exp` with a 24-bit significand, and every operation rounds
  to nearest, ties to even, exactly as IEEE-754 binary32 does for the finite
  positive magnitudes that occur in this program (all quantities stay far
  inside the normal range, so neither overflow, underflow, nor subnormals
  arise; division by zero is excluded by the positivity hypotheses carried
  by the theorems below).
* Pixel contents are irrelevant to every claim; a decoded image is its pair
  of dimensions (`Img`).
* Strings handed to `hex_to_color` are modelled as their UTF-8 byte lists,
  because the Rust code slices the string at byte indices 2 and 4 and those
  slices panic on a char-boundary violation.
* `Vec::sort_by` is a stable sort, so it is modelled by `List.insertionSort`
  (also stable): the two agree on every input whose comparator is a total
  preorder, which `str::cmp` is.
-/

namespace Collage

/-- `2^32`, the modulus of `u32` arithmetic. -/
def W32 : ℕ := 4294967296

/-- `2^64`, the modulus of `u64` arithmetic. -/
def W64 : ℕ := 18446744073709551616

/-- Wrapping `u32` addition. -/
def wadd (a b : ℕ) : ℕ := (a + b) % W32

/-- Wrapping `u32` multiplication. -/
def wmul (a b : ℕ) : ℕ := (a * b) % W32

/-- Wrapping `u32` decrement, used for `n - 1` on the image count. -/
def wsub1 (a : ℕ) : ℕ := (a + (W32 - 1)) % W32

/-- `log2fuel fuel n` computes `⌊log₂ n⌋` (with value `0` for `n ≤ 1`) by
structural recursion on `fuel`; it is correct whenever `n ≤ fuel`. -/
def log2fuel : ℕ → ℕ → ℕ
  | 0, _ => 0
  | fuel + 1, n => if n ≤ 1 then 0 else log2fuel fuel (n / 2) + 1

/-- `⌊log₂ n⌋` as a structurally recursive (kernel-evaluable) function. -/
def log2n (n : ℕ) : ℕ := log2fuel n n

/-- `qlog2 a b = ⌊log₂ (a / b)⌋` for positive naturals `a`, `b`. -/
def qlog2 (a b : ℕ) : ℤ :=
  if b ≤ a then (log2n (a / b) : ℤ)
  else
    let m := log2n (b / a)
    if b ≤ a * 2 ^ m then -(m : ℤ) else -((m : ℤ) + 1)

/-- Round the rational `p / q` (with `q > 0`) to the nearest integer, ties to
even. -/
def rneInt (p q : ℕ) : ℕ :=
  let d := p / q
  let r := p % q
  if 2 * r < q then d
  else if q < 2 * r then d + 1
  else if d % 2 = 0 then d else d + 1

/-- A finite nonnegative binary32 value `sig * 2 ^ exp`.  Nonzero values
produced by the operations below are normalised: `2^23 ≤ sig < 2^24`. -/
structure F32 where
  sig : ℕ
  exp : ℤ
deriving DecidableEq

/-- The rational value denoted by an `F32`. -/
def F32.val (x : F32) : ℚ := (x.sig : ℚ) * 2 ^ x.exp

/-- Round the positive rational `a / b` to binary32 (round to nearest, ties
to even), returning a normalised significand/exponent pair. -/
def rne24 (a b : ℕ) : F32 :=
  let e : ℤ := qlog2 a b
  let n : ℕ :=
    if 23 ≤ e then rneInt a (b * 2 ^ (e - 23).toNat)
    else rneInt (a * 2 ^ (23 - e).toNat) b
  if n = 2 ^ 24 then ⟨2 ^ 23, e - 22⟩ else ⟨n, e - 23⟩

/-- The binary32 value of `0.0`. -/
def f32zero : F32 := ⟨0, 0⟩

/-- `x as f32` for a `u32` value `x`. -/
def f32ofNat (x : ℕ) : F32 := if x = 0 then f32zero else rne24 x 1

/-- Binary32 division of finite nonnegative values (the zero-divisor case,
which Rust maps to `inf`, never arises under the positivity hypotheses of
the theorems below and is given the dummy value `0`). -/
def f32div (x y : F32) : F32 :=
  if x.sig = 0 ∨ y.sig = 0 then f32zero
  else
    let r := rne24 x.sig y.sig
    ⟨r.sig, r.exp + x.exp - y.exp⟩

/-- Binary32 multiplication of finite nonnegative values. -/
def f32mul (x y : F32) : F32 :=
  if x.sig = 0 ∨ y.sig = 0 then f32zero
  else
    let r := rne24 (x.sig * y.sig) 1
    ⟨r.sig, r.exp + x.exp + y.exp⟩

/-- `⌊x⌋` of a finite nonnegative binary32 value. -/
def f32floor (x : F32) : ℕ :=
  if 0 ≤ x.exp then x.sig * 2 ^ x.exp.toNat else x.sig / 2 ^ (-x.exp).toNat

/-- Rust's saturating cast `x as u32` for a finite nonnegative `f32`. -/
def f32toU32 (x : F32) : ℕ := min (f32floor x) (W32 - 1)

/-- `enum Orientation` from `main.rs` (named `Orient` here). -/
inductive Orient where
  | portrait
  | landscape
deriving DecidableEq

/-- The resolved command-line options of `struct App`, with the `clap`
default values.  The background color is kept as the UTF-8 bytes of the
option string. -/
structure App where
  image_width : Option ℕ := none
  image_height : Option ℕ := none
  orient : Orient := .portrait
  top_margin : ℕ := 0
  left_margin : ℕ := 0
  spacing : ℕ := 20
  background_color : List ℕ := [35, 102, 102, 102, 102, 102, 102]
  preserve_aspect : Bool := false
deriving DecidableEq

/-- A decoded image, reduced to its dimensions (pixel contents play no role
in any claim). -/
structure Img where
  width : ℕ
  height : ℕ
deriving DecidableEq

/-- `prepare_image` from `main.rs`: `resize_exact` yields an image of
exactly the requested dimensions, so only the dimension computation is
modelled. -/
def prepare_image (image : Img) (width height : ℕ) (app : App) : Img :=
  if !app.preserve_aspect then ⟨width, height⟩
  else
    let ar := f32div (f32ofNat image.width) (f32ofNat image.height)
    match app.orient with
    | .landscape => ⟨f32toU32 (f32mul (f32ofNat height) ar), height⟩
    | .portrait => ⟨width, f32toU32 (f32div (f32ofNat width) ar)⟩

/-! ### `hex_to_color`

Modelled at the byte level: `str::len` is a byte count, and the slices
`&hex_code[..2]`, `&hex_code[2..4]`, `&hex_code[4..6]` panic when byte
index 2 (resp. 4) falls inside a multi-byte UTF-8 character.  For a valid
UTF-8 byte sequence an index is a char boundary iff the byte there is not a
continuation byte. -/

/-- Result of `hex_to_color`: `Ok`, `Err`, or a Rust panic. -/
inductive HexResult where
  | ok (r g b a : ℕ)
  | error
  | panic
deriving DecidableEq

/-- Is the byte an ASCII hexadecimal digit? -/
def isHexDigitByte (b : ℕ) : Bool :=
  (48 ≤ b && b ≤ 57) || (97 ≤ b && b ≤ 102) || (65 ≤ b && b ≤ 70)

/-- Value of an ASCII hexadecimal digit byte (junk `0` otherwise). -/
def hexVal (b : ℕ) : ℕ :=
  if 48 ≤ b && b ≤ 57 then b - 48
  else if 97 ≤ b && b ≤ 102 then b - 87
  else if 65 ≤ b && b ≤ 70 then b - 55
  else 0

/-- The digit loop of `u8::from_str_radix(s, 16)`: accumulates hex digits,
failing on a non-digit or on `u8` overflow. -/
def parseDigits : List ℕ → ℕ → Option ℕ
  | [], acc => some acc
  | b :: rest, acc =>
    if isHexDigitByte b then
      if 255 < acc * 16 + hexVal b then none
      else parseDigits rest (acc * 16 + hexVal b)
    else none

/-- `u8::from_str_radix(s, 16)`: an optional leading `+` (byte 43) is
accepted before the digits; a leading `-` (byte 45) is rejected for an
unsigned type; the empty string and a bare sign are rejected. -/
def parseU8Hex (bs : List ℕ) : Option ℕ :=
  match bs with
  | [] => none
  | b :: rest =>
    if b = 43 then (if rest = [] then none else parseDigits rest 0)
    else if b = 45 then none
    else parseDigits bs 0

/-- `strip_prefix('#')`: drop one leading `#` (byte 35) if present. -/
def stripHash (bs : List ℕ) : List ℕ :=
  match bs with
  | 35 :: rest => rest
  | _ => bs

/-- Is the byte a UTF-8 continuation byte (i.e. not a char boundary)? -/
def isContinuation (b : ℕ) : Bool := 128 ≤ b && b < 192

/-- `hex_to_color` from `main.rs`, over the UTF-8 bytes of the option
string. -/
def hex_to_color (bs : List ℕ) : HexResult :=
  let code := stripHash bs
  if code.length = 6 then
    if isContinuation (code.getD 2 0) then .panic
    else
      match parseU8Hex (code.take 2) with
      | none => .error
      | some red =>
        if isContinuation (code.getD 4 0) then .panic
        else
          match parseU8Hex ((code.drop 2).take 2) with
          | none => .error
          | some green =>
            match parseU8Hex ((code.drop 4).take 2) with
            | none => .error
            | some blue => .ok red green blue 255
  else .error

/-! ### Canvas size, placement and blitting -/

/-- Plain (non-wrapping) sum of image heights, used on the specification
side of the theorems. -/
def heightsSum (imgs : List Img) : ℕ := (imgs.map Img.height).sum

/-- Plain (non-wrapping) sum of image widths. -/
def widthsSum (imgs : List Img) : ℕ := (imgs.map Img.width).sum

/-- The `fold` of `main.rs` summing the heights of the resized images in
`u32` arithmetic. -/
def foldHeights (imgs : List Img) : ℕ :=
  imgs.foldl (fun a b => wadd a b.height) 0

/-- The `fold` of `main.rs` summing the widths of the resized images in
`u32` arithmetic. -/
def foldWidths (imgs : List Img) : ℕ :=
  imgs.foldl (fun a b => wadd a b.width) 0

/-- The canvas size computation of `main.rs` (lines 185–198), over the
resolved target size `iw`/`ih` and the resized images. -/
def canvasDims (iw ih : ℕ) (app : App) (imgs : List Img) : ℕ × ℕ :=
  let n := imgs.length % W32
  match app.orient with
  | .portrait =>
    let w := wadd iw (wmul 2 app.left_margin)
    let hs := foldHeights imgs
    let h := wadd (wadd hs (wmul app.spacing (wsub1 n))) (wmul 2 app.top_margin)
    (w, h)
  | .landscape =>
    let h := wadd ih (wmul 2 app.top_margin)
    let ws := foldWidths imgs
    let w := wadd (wadd ws (wmul app.spacing (wsub1 n))) (wmul 2 app.left_margin)
    (w, h)

/-- The Portrait copy loop of `main.rs`: the cursor starts at
`(left_margin, top_margin)` and `y` advances by `image.height() + spacing`
after each copy.  Returns the copy positions in order. -/
def placeP (s x y : ℕ) : List Img → List (ℕ × ℕ)
  | [] => []
  | img :: rest => (x, y) :: placeP s x (wadd y (wadd img.height s)) rest

/-- The Landscape copy loop: `x` advances by `image.width() + spacing`. -/
def placeL (s x y : ℕ) : List Img → List (ℕ × ℕ)
  | [] => []
  | img :: rest => (x, y) :: placeL s (wadd x (wadd img.width s)) y rest

/-- Copy positions for either layout direction. -/
def placements (app : App) (imgs : List Img) : List ((ℕ × ℕ) × Img) :=
  match app.orient with
  | .portrait => (placeP app.spacing app.left_margin app.top_margin imgs).zip imgs
  | .landscape => (placeL app.spacing app.left_margin app.top_margin imgs).zip imgs

/-- The Portrait copy loop with the bounds check of
`GenericImage::copy_from`: the copy fails when
`canvas width < image width + x` or `canvas height < image height + y`.
Returns `false` iff some copy fails. -/
def blitOkP (cw ch s x y : ℕ) : List Img → Bool
  | [] => true
  | img :: rest =>
    if cw < wadd img.width x || ch < wadd img.height y then false
    else blitOkP cw ch s x (wadd y (wadd img.height s)) rest

/-- The Landscape copy loop with the `copy_from` bounds check. -/
def blitOkL (cw ch s x y : ℕ) : List Img → Bool
  | [] => true
  | img :: rest =>
    if cw < wadd img.width x || ch < wadd img.height y then false
    else blitOkL cw ch s (wadd x (wadd img.width s)) y rest

/-- Does every `copy_from` of the copy loop succeed? -/
def blitOk (cw ch : ℕ) (app : App) (imgs : List Img) : Bool :=
  match app.orient with
  | .portrait => blitOkP cw ch app.spacing app.left_margin app.top_margin imgs
  | .landscape => blitOkL cw ch app.spacing app.left_margin app.top_margin imgs

/-! ### The loader and the whole pipeline -/

/-- A directory entry as the pipeline sees it: its full path (the
`to_string_lossy` form; Lean's `String` order and Rust's byte order agree
on valid UTF-8), the `metadata.len()` result when metadata is readable, and
the decoded image when `image::open` succeeds. -/
structure Entry where
  path : String
  metaSize : Option ℕ
  decoded : Option Img
deriving DecidableEq

/-- The comparator `a.to_string_lossy().cmp(&b.to_string_lossy())` as a
relation on entries. -/
def pathLe (a b : Entry) : Prop := a.path ≤ b.path

instance : DecidableRel pathLe := fun a b =>
  inferInstanceAs (Decidable (a.path ≤ b.path))

instance : IsTotal Entry pathLe := ⟨fun a b => le_total a.path b.path⟩

instance : IsTrans Entry pathLe := ⟨fun _ _ _ h h' => le_trans h h'⟩

/-- `paths.sort_by(...)`: a stable sort by the path string, modelled by
insertion sort (stable sorts by a total preorder agree on every input). -/
def sortEntries (es : List Entry) : List Entry := List.insertionSort pathLe es

/-- The images the loader produces: decode the entries in sorted order and
silently skip every entry that fails to decode. -/
def loadImages (es : List Entry) : List Img :=
  (sortEntries es).filterMap Entry.decoded

/-- `raw_megabytes`: for each entry with readable metadata the code adds
`metadata.len() / 1_000_000` (a per-file floor division) in `u64`
arithmetic. -/
def rawMegabytes (es : List Entry) : ℕ :=
  es.foldl
    (fun a e => match e.metaSize with
      | some len => (a + len / 1000000) % W64
      | none => a)
    0

/-- The total on-disk byte size of the entries, as the specification
describes it. -/
def totalBytes (es : List Entry) : ℕ := (es.map (fun e => e.metaSize.getD 0)).sum

/-- Is the char one of the ASCII whitespace characters trimmed by
`str::trim` (the inputs of interest are ASCII)? -/
def isWsChar (c : Char) : Bool := c = ' ' || c = '\t' || c = '\n' || c = '\r'

/-- ASCII lowercasing of one character (the inputs of interest are ASCII). -/
def lowerChar (c : Char) : Char :=
  if 'A' ≤ c && c ≤ 'Z' then Char.ofNat (c.toNat + 32) else c

/-- `input.trim().to_lowercase()` over the character list. -/
def normAnswer (s : String) : List Char :=
  ((((s.data.dropWhile isWsChar).reverse).dropWhile isWsChar).reverse).map lowerChar

/-- Does the confirmation prompt accept the input, i.e. is the trimmed,
lowercased input `"y"` or `"yes"`? -/
def acceptAnswer (s : String) : Bool :=
  normAnswer s = ['y'] || normAnswer s = ['y', 'e', 's']

/-- How a run of the program ends. -/
inductive Exit where
  | wrote (canvas : ℕ × ℕ) (copies : List ((ℕ × ℕ) × Img))
  | cancelled
  | errored (msg : String)
  | panicked (msg : String)
deriving DecidableEq

/-- `main` after the confirmation step (lines 160–241): resolve the target
size from the options or the first image — `images[0]` is evaluated
unconditionally by `unwrap_or` and panics on an empty vector — then resize,
compute the canvas, parse the background color, and copy. -/
def continueRun (app : App) (images : List Img) : Exit :=
  match images with
  | [] => .panicked "index out of bounds: the len is 0 but the index is 0"
  | i0 :: _ =>
    let image_width := app.image_width.getD i0.width
    let image_height := app.image_height.getD i0.height
    let imgs := images.map (fun im => prepare_image im image_width image_height app)
    let c := canvasDims image_width image_height app imgs
    match hex_to_color app.background_color with
    | .panic => .panicked "byte index is not a char boundary"
    | .error => .errored "Invalid hex code"
    | .ok _ _ _ _ =>
      if blitOk c.1 c.2 app imgs then .wrote c (placements app imgs)
      else .errored "copy to canvas failed"

/-- `main` from the point where the entries are known: sort them, sum
`raw_megabytes` and decode in one pass over the sorted list, ask for
confirmation when `raw_megabytes > 100` (any answer other than `y`/`yes`
returns `Ok(())`, exit status 0), then continue. -/
def runCollage (app : App) (entries : List Entry) (input : String) : Exit :=
  let sorted := sortEntries entries
  let mb := rawMegabytes sorted
  let images := sorted.filterMap Entry.decoded
  if 100 < mb then
    if acceptAnswer input then continueRun app images else .cancelled
  else continueRun app images

/-! ### The output writer -/

/-- The candidate output filename `collage_<num>.png`. -/
def collageName (num : ℕ) : String := "collage_" ++ toString num ++ ".png"

/-- The filename search loop of `main.rs`: starting from `num`, increment
while `collage_<num>.png` exists.  `taken n` models `sketch.exists()` for
the name with suffix `n`; the loop is given fuel because the Rust loop
terminates only when some name is free. -/
def findNum (taken : ℕ → Bool) : ℕ → ℕ → Option ℕ
  | 0, _ => none
  | fuel + 1, num => if taken num then findNum taken fuel (num + 1) else some num

/-- The filename the output writer chooses. -/
def chooseOutput (taken : ℕ → Bool) (fuel : ℕ) : Option String :=
  (findNum taken fuel 0).map collageName

/-! ### Arithmetic helper lemmas -/

theorem wadd_eq {a b : ℕ} (h : a + b < W32) : wadd a b = a + b :=
  Nat.mod_eq_of_lt h

theorem wmul_eq {a b : ℕ} (h : a * b < W32) : wmul a b = a * b :=
  Nat.mod_eq_of_lt h

theorem wsub1_eq {a : ℕ} (h0 : 0 < a) (h : a < W32) : wsub1 a = a - 1 := by
  have hW : (0 : ℕ) < W32 := by norm_num [W32]
  have he : a + (W32 - 1) = (a - 1) + W32 := by omega
  unfold wsub1
  rw [he, Nat.add_mod_right]
  exact Nat.mod_eq_of_lt (by omega)

theorem heightsSum_cons (g : Img) (l : List Img) :
    heightsSum (g :: l) = g.height + heightsSum l := by
  simp [heightsSum]

theorem widthsSum_cons (g : Img) (l : List Img) :
    widthsSum (g :: l) = g.width + widthsSum l := by
  simp [widthsSum]

theorem foldl_wadd_heights :
    ∀ (imgs : List Img) (a : ℕ), a + heightsSum imgs < W32 →
      imgs.foldl (fun x b => wadd x b.height) a = a + heightsSum imgs
  | [], a, _ => by simp [heightsSum]
  | g :: rest, a, h => by
    rw [heightsSum_cons] at h
    rw [List.foldl_cons, wadd_eq (by omega),
      foldl_wadd_heights rest (a + g.height) (by omega), heightsSum_cons]
    omega

theorem foldHeights_eq {imgs : List Img} (h : heightsSum imgs < W32) :
    foldHeights imgs = heightsSum imgs := by
  simpa using foldl_wadd_heights imgs 0 (by omega)

theorem foldl_wadd_widths :
    ∀ (imgs : List Img) (a : ℕ), a + widthsSum imgs < W32 →
      imgs.foldl (fun x b => wadd x b.width) a = a + widthsSum imgs
  | [], a, _ => by simp [widthsSum]
  | g :: rest, a, h => by
    rw [widthsSum_cons] at h
    rw [List.foldl_cons, wadd_eq (by omega),
      foldl_wadd_widths rest (a + g.width) (by omega), widthsSum_cons]
    omega

theorem foldWidths_eq {imgs : List Img} (h : widthsSum imgs < W32) :
    foldWidths imgs = widthsSum imgs := by
  simpa using foldl_wadd_widths imgs 0 (by omega)

/-! ### C2: canvas dimensions -/

/-- C2.  For a non-empty list of `n` resized images (with all the `u32`
arithmetic staying below `2^32`): in Portrait the canvas is
`(target width + 2·left, Σ heights + spacing·(n−1) + 2·top)`; in Landscape
it is `(Σ widths + spacing·(n−1) + 2·left, target height + 2·top)`. -/
theorem canvas_dims_formula (app : App) (iw ih : ℕ) (imgs : List Img)
    (hne : imgs ≠ []) (hlen : imgs.length < W32)
    (hpw : iw + 2 * app.left_margin < W32)
    (hph : heightsSum imgs + app.spacing * (imgs.length - 1) + 2 * app.top_margin < W32)
    (hlh : ih + 2 * app.top_margin < W32)
    (hlw : widthsSum imgs + app.spacing * (imgs.length - 1) + 2 * app.left_margin < W32) :
    canvasDims iw ih app imgs =
      match app.orient with
      | .portrait => (iw + 2 * app.left_margin,
          heightsSum imgs + app.spacing * (imgs.length - 1) + 2 * app.top_margin)
      | .landscape => (widthsSum imgs + app.spacing * (imgs.length - 1) + 2 * app.left_margin,
          ih + 2 * app.top_margin) := by
  have hpos : 0 < imgs.length := List.length_pos.mpr hne
  have hn : imgs.length % W32 = imgs.length := Nat.mod_eq_of_lt hlen
  have e2 : wsub1 (imgs.length % W32) = imgs.length - 1 := by
    rw [hn]; exact wsub1_eq hpos hlen
  have e3 : wmul app.spacing (imgs.length - 1) = app.spacing * (imgs.length - 1) :=
    wmul_eq (by omega)
  cases ho : app.orient with
  | portrait =>
    have e1 : foldHeights imgs = heightsSum imgs := foldHeights_eq (by omega)
    have e4 : wadd (heightsSum imgs) (app.spacing * (imgs.length - 1)) =
        heightsSum imgs + app.spacing * (imgs.length - 1) := wadd_eq (by omega)
    have e5 : wmul 2 app.top_margin = 2 * app.top_margin := wmul_eq (by omega)
    have e6 : wadd (heightsSum imgs + app.spacing * (imgs.length - 1)) (2 * app.top_margin) =
        heightsSum imgs + app.spacing * (imgs.length - 1) + 2 * app.top_margin :=
      wadd_eq (by omega)
    have e7 : wmul 2 app.left_margin = 2 * app.left_margin := wmul_eq (by omega)
    have e8 : wadd iw (2 * app.left_margin) = iw + 2 * app.left_margin := wadd_eq (by omega)
    simp only [canvasDims, ho]
    rw [e1, e2, e3, e4, e5, e6, e7, e8]
  | landscape =>
    have e1 : foldWidths imgs = widthsSum imgs := foldWidths_eq (by omega)
    have e4 : wadd (widthsSum imgs) (app.spacing * (imgs.length - 1)) =
        widthsSum imgs + app.spacing * (imgs.length - 1) := wadd_eq (by omega)
    have e5 : wmul 2 app.left_margin = 2 * app.left_margin := wmul_eq (by omega)
    have e6 : wadd (widthsSum imgs + app.spacing * (imgs.length - 1)) (2 * app.left_margin) =
        widthsSum imgs + app.spacing * (imgs.length - 1) + 2 * app.left_margin :=
      wadd_eq (by omega)
    have e7 : wmul 2 app.top_margin = 2 * app.top_margin := wmul_eq (by omega)
    have e8 : wadd ih (2 * app.top_margin) = ih + 2 * app.top_margin := wadd_eq (by omega)
    simp only [canvasDims, ho]
    rw [e1, e2, e3, e4, e5, e6, e7, e8]

/-- Witness for C2 at the spec's end-to-end scenario: two 100×100 images,
Portrait, zero margins, spacing 10. -/
theorem canvas_dims_formula_witness :
    canvasDims 100 100 { spacing := 10 } [⟨100, 100⟩, ⟨100, 100⟩] = (100, 210) := by
  have h := canvas_dims_formula { spacing := 10 } 100 100 [⟨100, 100⟩, ⟨100, 100⟩]
    (by decide) (by decide) (by decide) (by decide) (by decide) (by decide)
  rw [h]
  decide

/-! ### C3: portrait placement -/

/-- C3.  In Portrait orientation the `i`-th image is copied at
`x = left_margin` and `y = top_margin + (sum of the heights of the
preceding images) + i·spacing` (stated with the cursor start `(x, y)`
generalised; `main` starts it at `(left_margin, top_margin)`). -/
theorem place_portrait_formula :
    ∀ (imgs : List Img) (s x y : ℕ),
      y + heightsSum imgs + s * (imgs.length - 1) < W32 →
      placeP s x y imgs =
        (List.range imgs.length).map
          (fun i => (x, y + heightsSum (imgs.take i) + i * s))
  | [], s, x, y, _ => by simp [placeP]
  | img :: rest, s, x, y, h => by
    cases rest with
    | nil =>
      simp [placeP, heightsSum, List.range_succ]
    | cons i2 t =>
      have hlen : (img :: i2 :: t : List Img).length - 1 = t.length + 1 := by simp
      rw [hlen, Nat.mul_succ] at h
      rw [heightsSum_cons, heightsSum_cons] at h
      have hy : y + (wadd img.height s) = wadd y (wadd img.height s) := by
        rw [wadd_eq (by omega), wadd_eq (by omega)]
      have hs : wadd img.height s = img.height + s := wadd_eq (by omega)
      have hih := place_portrait_formula (i2 :: t) s x (y + (img.height + s)) (by
        rw [heightsSum_cons]
        simp only [List.length_cons, Nat.add_sub_cancel]
        omega)
      show (x, y) :: placeP s x (wadd y (wadd img.height s)) (i2 :: t) = _
      rw [← hy, hs, hih]
      have hr : (img :: i2 :: t : List Img).length = (i2 :: t : List Img).length + 1 := by
        simp
      rw [hr, List.range_succ_eq_map]
      simp only [List.map_cons, List.map_map]
      congr 1
      · simp [heightsSum]
      · apply List.map_congr_left
        intro i _
        simp only [Function.comp_apply, List.take_succ_cons, heightsSum_cons]
        have : y + (img.height + s) + heightsSum ((i2 :: t).take i) + i * s =
            y + (img.height + heightsSum ((i2 :: t).take i)) + (i + 1) * s := by ring
        rw [this]

/-- Witness for C3 at the spec's end-to-end scenario: two 100×100 images,
spacing 10, zero margins — copies at `(0,0)` and `(0,110)` on a 100×210
canvas. -/
theorem place_portrait_formula_witness :
    placeP 10 0 0 [⟨100, 100⟩, ⟨100, 100⟩] = [(0, 0), (0, 110)] ∧
      canvasDims 100 100 { spacing := 10 } [⟨100, 100⟩, ⟨100, 100⟩] = (100, 210) := by
  constructor
  · have h := place_portrait_formula [⟨100, 100⟩, ⟨100, 100⟩] 10 0 0 (by decide)
    rw [h]
    decide
  · decide

/-! ### C7: every image fits on the canvas -/

theorem prepare_image_width_portrait (g : Img) (w h : ℕ) (app : App)
    (ho : app.orient = .portrait) : (prepare_image g w h app).width = w := by
  cases hp : app.preserve_aspect <;> simp [prepare_image, hp, ho]

theorem prepare_image_height_landscape (g : Img) (w h : ℕ) (app : App)
    (ho : app.orient = .landscape) : (prepare_image g w h app).height = h := by
  cases hp : app.preserve_aspect <;> simp [prepare_image, hp, ho]

theorem blitOkP_of_fits :
    ∀ (imgs : List Img) (cw ch s x y : ℕ),
      cw < W32 → ch < W32 →
      (∀ g ∈ imgs, g.width + x ≤ cw) →
      y + heightsSum imgs + s * (imgs.length - 1) ≤ ch →
      blitOkP cw ch s x y imgs = true
  | [], _, _, _, _, _, _, _, _, _ => rfl
  | g :: rest, cw, ch, s, x, y, hcw, hch, hw, hh => by
    have hg : g.width + x ≤ cw := hw g (by simp)
    have hgy : g.height + y ≤ ch := by
      rw [heightsSum_cons] at hh; omega
    have e1 : wadd g.width x = g.width + x := wadd_eq (by omega)
    have e2 : wadd g.height y = g.height + y := wadd_eq (by omega)
    show (if cw < wadd g.width x || ch < wadd g.height y then false
      else blitOkP cw ch s x (wadd y (wadd g.height s)) rest) = true
    rw [e1, e2]
    have hcond : (cw < g.width + x || ch < g.height + y) = false := by
      simp only [Bool.or_eq_false_iff, decide_eq_false_iff_not, Nat.not_lt]
      omega
    rw [hcond, if_neg (by simp)]
    cases rest with
    | nil => rfl
    | cons r2 t =>
      simp only [heightsSum_cons, List.length_cons, Nat.add_sub_cancel, Nat.mul_succ] at hh
      have ei : wadd g.height s = g.height + s := wadd_eq (by omega)
      have hy' : wadd y (wadd g.height s) = y + (g.height + s) := by
        rw [ei]; exact wadd_eq (by omega)
      rw [hy']
      apply blitOkP_of_fits (r2 :: t) cw ch s x _ hcw hch
        (fun g' hg' => hw g' (by simp [hg']))
      simp only [heightsSum_cons, List.length_cons, Nat.add_sub_cancel]
      omega

theorem blitOkL_of_fits :
    ∀ (imgs : List Img) (cw ch s x y : ℕ),
      cw < W32 → ch < W32 →
      (∀ g ∈ imgs, g.height + y ≤ ch) →
      x + widthsSum imgs + s * (imgs.length - 1) ≤ cw →
      blitOkL cw ch s x y imgs = true
  | [], _, _, _, _, _, _, _, _, _ => rfl
  | g :: rest, cw, ch, s, x, y, hcw, hch, hhy, hw => by
    have hg : g.height + y ≤ ch := hhy g (by simp)
    have hgx : g.width + x ≤ cw := by
      rw [widthsSum_cons] at hw; omega
    have e1 : wadd g.width x = g.width + x := wadd_eq (by omega)
    have e2 : wadd g.height y = g.height + y := wadd_eq (by omega)
    show (if cw < wadd g.width x || ch < wadd g.height y then false
      else blitOkL cw ch s (wadd x (wadd g.width s)) y rest) = true
    rw [e1, e2]
    have hcond : (cw < g.width + x || ch < g.height + y) = false := by
      simp only [Bool.or_eq_false_iff, decide_eq_false_iff_not, Nat.not_lt]
      omega
    rw [hcond, if_neg (by simp)]
    cases rest with
    | nil => rfl
    | cons r2 t =>
      simp only [widthsSum_cons, List.length_cons, Nat.add_sub_cancel, Nat.mul_succ] at hw
      have ei : wadd g.width s = g.width + s := wadd_eq (by omega)
      have hx' : wadd x (wadd g.width s) = x + (g.width + s) := by
        rw [ei]; exact wadd_eq (by omega)
      rw [hx']
      apply blitOkL_of_fits (r2 :: t) cw ch s _ y hcw hch
        (fun g' hg' => hhy g' (by simp [hg']))
      simp only [widthsSum_cons, List.length_cons, Nat.add_sub_cancel]
      omega

/-- C7.  For every non-empty image list and configuration (with the size
arithmetic staying below `2^32`), the canvas computed from the resized
images is large enough: the out-of-bounds branch of `copy_from` is never
taken. -/
theorem blit_never_fails (app : App) (orig : List Img) (iw ih : ℕ)
    (hne : orig ≠ []) (hlen : orig.length < W32)
    (hpw : iw + 2 * app.left_margin < W32)
    (hph : heightsSum (orig.map (fun g => prepare_image g iw ih app)) +
      app.spacing * (orig.length - 1) + 2 * app.top_margin < W32)
    (hlh : ih + 2 * app.top_margin < W32)
    (hlw : widthsSum (orig.map (fun g => prepare_image g iw ih app)) +
      app.spacing * (orig.length - 1) + 2 * app.left_margin < W32) :
    blitOk (canvasDims iw ih app (orig.map (fun g => prepare_image g iw ih app))).1
      (canvasDims iw ih app (orig.map (fun g => prepare_image g iw ih app))).2
      app (orig.map (fun g => prepare_image g iw ih app)) = true := by
  set imgs := orig.map (fun g => prepare_image g iw ih app) with himgs
  have hlen' : imgs.length = orig.length := by simp [himgs]
  have hne' : imgs ≠ [] := by simp [himgs, hne]
  have hph' : heightsSum imgs + app.spacing * (imgs.length - 1) + 2 * app.top_margin < W32 := by
    rw [hlen']; exact hph
  have hlw' : widthsSum imgs + app.spacing * (imgs.length - 1) + 2 * app.left_margin < W32 := by
    rw [hlen']; exact hlw
  have hcd := canvas_dims_formula app iw ih imgs hne' (by rw [hlen']; exact hlen)
    hpw hph' hlh hlw'
  cases ho : app.orient with
  | portrait =>
    rw [hcd]
    simp only [ho, blitOk]
    apply blitOkP_of_fits imgs _ _ _ _ _ (by omega) (by omega)
    · intro g hg
      obtain ⟨g0, _, rfl⟩ := List.mem_map.mp (himgs ▸ hg)
      rw [prepare_image_width_portrait g0 iw ih app ho]
      omega
    · omega
  | landscape =>
    rw [hcd]
    simp only [ho, blitOk]
    apply blitOkL_of_fits imgs _ _ _ _ _ (by omega) (by omega)
    · intro g hg
      obtain ⟨g0, _, rfl⟩ := List.mem_map.mp (himgs ▸ hg)
      rw [prepare_image_height_landscape g0 iw ih app ho]
      omega
    · omega

/-- Witness for C7: two 100×100 images, Portrait, spacing 10, no margins. -/
theorem blit_never_fails_witness :
    blitOk
      (canvasDims 100 100 { spacing := 10 }
        (([⟨100, 100⟩, ⟨100, 100⟩] : List Img).map
          (fun g => prepare_image g 100 100 { spacing := 10 }))).1
      (canvasDims 100 100 { spacing := 10 }
        (([⟨100, 100⟩, ⟨100, 100⟩] : List Img).map
          (fun g => prepare_image g 100 100 { spacing := 10 }))).2
      { spacing := 10 }
      (([⟨100, 100⟩, ⟨100, 100⟩] : List Img).map
        (fun g => prepare_image g 100 100 { spacing := 10 })) = true :=
  blit_never_fails { spacing := 10 } [⟨100, 100⟩, ⟨100, 100⟩] 100 100
    (by decide) (by decide) (by decide) (by decide) (by decide) (by decide)

/-! ### C8: output filename selection -/

theorem findNum_spec :
    ∀ (taken : ℕ → Bool) (fuel start n : ℕ),
      findNum taken fuel start = some n →
      start ≤ n ∧ taken n = false ∧ ∀ m, start ≤ m → m < n → taken m = true
  | _, 0, _, _ => by simp [findNum]
  | taken, fuel + 1, start, n => by
    intro h
    unfold findNum at h
    by_cases ht : taken start
    · rw [if_pos ht] at h
      obtain ⟨h1, h2, h3⟩ := findNum_spec taken fuel (start + 1) n h
      refine ⟨by omega, h2, fun m hm1 hm2 => ?_⟩
      rcases Nat.eq_or_lt_of_le hm1 with he | hl
      · rwa [he] at ht
      · exact h3 m (by omega) hm2
    · rw [if_neg ht] at h
      injection h with h
      subst h
      exact ⟨le_refl _, by simpa using ht, fun m hm1 hm2 => absurd hm1 (by omega)⟩

/-- C8.  When the filename loop terminates with suffix `n`, then
`collage_<n>.png` does not exist, every smaller suffix exists, and the
chosen output name is `collage_<n>.png`. -/
theorem output_name_smallest (taken : ℕ → Bool) (fuel n : ℕ)
    (h : findNum taken fuel 0 = some n) :
    taken n = false ∧ (∀ m, m < n → taken m = true) ∧
      chooseOutput taken fuel = some (collageName n) := by
  obtain ⟨_, h2, h3⟩ := findNum_spec taken fuel 0 n h
  exact ⟨h2, fun m hm => h3 m (Nat.zero_le m) hm, by simp [chooseOutput, h]⟩

/-- Witness for C8 at the spec's scenario: `collage_0.png` and
`collage_1.png` exist, so `collage_2.png` is chosen. -/
theorem output_name_smallest_witness :
    (fun m => decide (m < 2)) 2 = false ∧
      chooseOutput (fun m => decide (m < 2)) 10 = some "collage_2.png" := by
  have h := output_name_smallest (fun m => decide (m < 2)) 10 2 (by decide)
  refine ⟨h.1, ?_⟩
  rw [h.2.2]
  decide

/-! ### C9: deterministic, lexicographically sorted loading -/

/-- Strict version of the path comparator. -/
def pathLt (a b : Entry) : Prop := a.path < b.path

instance : IsAntisymm Entry pathLt :=
  ⟨fun _ _ h h' => ((lt_asymm h) h').elim⟩

/-- C9.  Loading is a function of the entry set only: over two
enumerations of the same entries (paths pairwise distinct, as on a real
filesystem) the loader yields the same image list, and the entries are
processed in ascending lexicographic path order. -/
theorem load_images_deterministic (e1 e2 : List Entry)
    (hperm : e1.Perm e2) (hnd : (e1.map Entry.path).Nodup) :
    loadImages e1 = loadImages e2 ∧ (sortEntries e1).Pairwise pathLe := by
  have hs1 : (sortEntries e1).Pairwise pathLe := List.sorted_insertionSort pathLe e1
  have hs2 : (sortEntries e2).Pairwise pathLe := List.sorted_insertionSort pathLe e2
  have hp1 : (sortEntries e1).Perm e1 := List.perm_insertionSort pathLe e1
  have hp2 : (sortEntries e2).Perm e2 := List.perm_insertionSort pathLe e2
  have hnd2 : (e2.map Entry.path).Nodup := ((hperm.map Entry.path).nodup_iff).mp hnd
  have hne1 : (sortEntries e1).Pairwise (fun a b => a.path ≠ b.path) := by
    have := ((hp1.map Entry.path).nodup_iff).mpr hnd
    simpa [List.Nodup, List.pairwise_map] using this
  have hne2 : (sortEntries e2).Pairwise (fun a b => a.path ≠ b.path) := by
    have := ((hp2.map Entry.path).nodup_iff).mpr hnd2
    simpa [List.Nodup, List.pairwise_map] using this
  have hlt1 : (sortEntries e1).Pairwise pathLt :=
    (hs1.and hne1).imp fun hab => lt_of_le_of_ne hab.1 hab.2
  have hlt2 : (sortEntries e2).Pairwise pathLt :=
    (hs2.and hne2).imp fun hab => lt_of_le_of_ne hab.1 hab.2
  have heq : sortEntries e1 = sortEntries e2 :=
    List.eq_of_perm_of_sorted (hp1.trans (hperm.trans hp2.symm)) hlt1 hlt2
  exact ⟨by unfold loadImages; rw [heq], hs1⟩

/-- Witness for C9: the same two entries in both enumeration orders. -/
theorem load_images_deterministic_witness :
    loadImages [⟨"b.png", some 1, some ⟨2, 2⟩⟩, ⟨"a.png", some 1, some ⟨3, 3⟩⟩] =
        loadImages [⟨"a.png", some 1, some ⟨3, 3⟩⟩, ⟨"b.png", some 1, some ⟨2, 2⟩⟩] ∧
      (sortEntries [⟨"b.png", some 1, some ⟨2, 2⟩⟩, ⟨"a.png", some 1, some ⟨3, 3⟩⟩]).Pairwise
        pathLe :=
  load_images_deterministic
    [⟨"b.png", some 1, some ⟨2, 2⟩⟩, ⟨"a.png", some 1, some ⟨3, 3⟩⟩]
    [⟨"a.png", some 1, some ⟨3, 3⟩⟩, ⟨"b.png", some 1, some ⟨2, 2⟩⟩]
    (List.Perm.swap _ _ _) (by decide)

/-! ### C5: hex color parsing -/

theorem hexVal_le {b : ℕ} (h : isHexDigitByte b = true) : hexVal b ≤ 15 := by
  simp only [isHexDigitByte, Bool.or_eq_true, Bool.and_eq_true, decide_eq_true_eq] at h
  unfold hexVal
  split_ifs <;> simp_all <;> omega

theorem hex_not_continuation {b : ℕ} (h : isHexDigitByte b = true) :
    isContinuation b = false := by
  simp only [isHexDigitByte, Bool.or_eq_true, Bool.and_eq_true, decide_eq_true_eq] at h
  simp only [isContinuation, Bool.and_eq_false_iff, decide_eq_false_iff_not, Nat.not_le,
    Nat.not_lt]
  omega

theorem parseU8Hex_pair (b0 b1 : ℕ) (h0 : isHexDigitByte b0 = true)
    (h1 : isHexDigitByte b1 = true) :
    parseU8Hex [b0, b1] = some (16 * hexVal b0 + hexVal b1) := by
  have hv0 : hexVal b0 ≤ 15 := hexVal_le h0
  have hv1 : hexVal b1 ≤ 15 := hexVal_le h1
  have hn43 : ¬b0 = 43 := by
    simp only [isHexDigitByte, Bool.or_eq_true, Bool.and_eq_true, decide_eq_true_eq] at h0
    omega
  have hn45 : ¬b0 = 45 := by
    simp only [isHexDigitByte, Bool.or_eq_true, Bool.and_eq_true, decide_eq_true_eq] at h0
    omega
  simp only [parseU8Hex, parseDigits]
  rw [if_neg hn43, if_neg hn45, if_pos h0, if_neg (by omega), if_pos h1, if_neg (by omega)]
  congr 1
  ring

/-- C5 (amended).  Any string whose stripped form is six ASCII hex digits
parses to exactly the three byte values with alpha 255, and any string
whose stripped form does not have byte length 6 is rejected; however, a
six-byte stripped form need not consist of hex digits to be accepted (a
pair may start with `+`, see the counterexample), and a multi-byte UTF-8
character straddling byte offset 2 or 4 panics instead of erroring (third
conjunct: the bytes of `"1é234"`). -/
theorem hex_to_color_spec :
    (∀ bs : List ℕ, (stripHash bs).length = 6 →
      (∀ b ∈ stripHash bs, isHexDigitByte b = true) →
      hex_to_color bs = .ok
        (16 * hexVal ((stripHash bs).getD 0 0) + hexVal ((stripHash bs).getD 1 0))
        (16 * hexVal ((stripHash bs).getD 2 0) + hexVal ((stripHash bs).getD 3 0))
        (16 * hexVal ((stripHash bs).getD 4 0) + hexVal ((stripHash bs).getD 5 0)) 255) ∧
    (∀ bs : List ℕ, (stripHash bs).length ≠ 6 → hex_to_color bs = .error) ∧
    hex_to_color [49, 195, 169, 50, 51, 52] = .panic := by
  refine ⟨?_, ?_, by decide⟩
  · intro bs hlen hhex
    unfold hex_to_color
    rcases hcs : stripHash bs with _ | ⟨b0, _ | ⟨b1, _ | ⟨b2, _ | ⟨b3, _ | ⟨b4, _ |
      ⟨b5, _ | ⟨b6, t⟩⟩⟩⟩⟩⟩⟩ <;> rw [hcs] at hlen <;> simp_all
    obtain ⟨h0, h1, h2, h3, h4, h5⟩ := hhex
    rw [hex_not_continuation h2, hex_not_continuation h4,
      parseU8Hex_pair b0 b1 h0 h1, parseU8Hex_pair b2 b3 h2 h3, parseU8Hex_pair b4 b5 h4 h5]
    simp
  · intro bs hlen
    unfold hex_to_color
    rw [if_neg hlen]

/-- Witness for C5: `"#ff0080"` parses to `(255, 0, 128, 255)`. -/
theorem hex_to_color_spec_witness :
    hex_to_color [35, 102, 102, 48, 48, 56, 48] = .ok 255 0 128 255 := by
  have h := hex_to_color_spec.1 [35, 102, 102, 48, 48, 56, 48] (by decide) (by decide)
  rw [h]
  decide

/-- Counterexample for C5 as stated: the six-byte string `"+12345"`
contains the non-hex character `+` (byte 43) yet parses successfully to
`(1, 0x23, 0x45, 255)` because `u8::from_str_radix` accepts a leading
plus sign. -/
theorem hex_to_color_plus_accepted :
    hex_to_color [43, 49, 50, 51, 52, 53] = .ok 1 35 69 255 ∧
      isHexDigitByte 43 = false ∧
      (stripHash [43, 49, 50, 51, 52, 53]).length = 6 := by decide

/-! ### C4: the 100 MB confirmation threshold -/

/-- C4 is violated by the code: `raw_megabytes` is the sum of the
per-entry floor divisions `len / 1_000_000`, not the total byte size
divided by 1 MB.  A single 100,999,999-byte file exceeds 100 MB, yet the
code computes `raw_megabytes = 100`, skips the confirmation prompt, and
writes the collage even though the (empty) answer would have cancelled the
run. -/
theorem big_batch_without_confirmation :
    runCollage {} [⟨"a.png", some 100999999, some ⟨10, 10⟩⟩] "" =
        .wrote (10, 10) [((0, 0), ⟨10, 10⟩)] ∧
      100 * 1000000 < totalBytes [⟨"a.png", some 100999999, some ⟨10, 10⟩⟩] ∧
      rawMegabytes [⟨"a.png", some 100999999, some ⟨10, 10⟩⟩] = 100 ∧
      acceptAnswer "" = false := by decide

/-! ### C6: empty image set -/

/-- C6 is violated by the code: with no decodable image the loader yields
an empty vector and `images[0].width()` (evaluated unconditionally inside
`unwrap_or`) panics with an index-out-of-bounds message — there is no
guard and no graceful error. -/
theorem empty_image_set_panics :
    runCollage {} [⟨"notes.txt", some 5, none⟩] "" =
      .panicked "index out of bounds: the len is 0 but the index is 0" := by decide

/-! ### Facts about the binary32 model -/

theorem log2fuel_eq : ∀ (fuel n : ℕ), n ≤ fuel → log2fuel fuel n = Nat.log2 n
  | 0, n, h => by
    have hn : n = 0 := by omega
    subst hn
    simp [log2fuel, Nat.log2_zero]
  | fuel + 1, n, h => by
    unfold log2fuel
    by_cases h1 : n ≤ 1
    · rw [if_pos h1]
      have : n = 0 ∨ n = 1 := by omega
      rcases this with rfl | rfl
      · simp [Nat.log2_zero]
      · simpa using (Nat.log2_two_pow : Nat.log2 (2 ^ 0) = 0).symm
    · rw [if_neg h1, log2fuel_eq fuel (n / 2) (by omega)]
      conv_rhs => rw [Nat.log2]
      rw [if_pos (by omega)]

theorem log2n_eq (n : ℕ) : log2n n = Nat.log2 n := log2fuel_eq n n (le_refl n)

theorem log2_one_eq : Nat.log2 1 = 0 := by
  simpa using (Nat.log2_two_pow : Nat.log2 (2 ^ 0) = 0)

theorem qlog2_self {a : ℕ} (ha : 0 < a) : qlog2 a a = 0 := by
  unfold qlog2
  rw [if_pos (le_refl a), Nat.div_self ha, log2n_eq, log2_one_eq]
  simp

theorem qlog2_nat {x : ℕ} (hx : 0 < x) : qlog2 x 1 = (Nat.log2 x : ℤ) := by
  unfold qlog2
  rw [if_pos (by omega), Nat.div_one, log2n_eq]

theorem qlog2_sig {s : ℕ} (h1 : 2 ^ 23 ≤ s) (h2 : s < 2 ^ 24) : qlog2 s (2 ^ 23) = 0 := by
  unfold qlog2
  rw [if_pos h1]
  have hd : s / 2 ^ 23 = 1 := by omega
  rw [hd, log2n_eq, log2_one_eq]
  simp

theorem rneInt_exact {p q : ℕ} (hq : 0 < q) (h : p % q = 0) : rneInt p q = p / q := by
  simp only [rneInt, h]
  rw [if_pos (by omega)]

theorem rneInt_ge_div (p q : ℕ) : p / q ≤ rneInt p q := by
  simp only [rneInt]
  split_ifs <;> omega

theorem rne24_self {a : ℕ} (ha : 0 < a) : rne24 a a = ⟨2 ^ 23, -23⟩ := by
  simp only [rne24]
  rw [qlog2_self ha]
  have hc : ¬(23 : ℤ) ≤ 0 := by decide
  rw [if_neg hc]
  have ht : ((23 : ℤ) - 0).toNat = 23 := by decide
  rw [ht]
  have hr : rneInt (a * 2 ^ 23) a = 2 ^ 23 := by
    rw [rneInt_exact ha (Nat.mul_mod_right a (2 ^ 23)), Nat.mul_div_cancel_left _ ha]
  rw [hr]
  have hne : ¬(2 ^ 23 : ℕ) = 2 ^ 24 := by norm_num
  rw [if_neg hne]
  norm_num

theorem f32ofNat_small {w : ℕ} (h1 : 0 < w) (h2 : w < 2 ^ 24) :
    f32ofNat w = ⟨w * 2 ^ (23 - Nat.log2 w), (Nat.log2 w : ℤ) - 23⟩ := by
  have hne : w ≠ 0 := by omega
  have hlog : Nat.log2 w ≤ 23 := by
    have := (Nat.log2_lt hne).mpr h2
    omega
  have hup : w * 2 ^ (23 - Nat.log2 w) < 2 ^ 24 := by
    have hw : w < 2 ^ (Nat.log2 w + 1) := Nat.lt_log2_self
    calc w * 2 ^ (23 - Nat.log2 w)
        < 2 ^ (Nat.log2 w + 1) * 2 ^ (23 - Nat.log2 w) :=
          mul_lt_mul_of_pos_right hw (by positivity)
      _ = 2 ^ 24 := by
          rw [← pow_add]
          congr 1
          omega
  unfold f32ofNat
  rw [if_neg hne]
  simp only [rne24]
  rw [qlog2_nat h1]
  rcases Nat.lt_or_ge (Nat.log2 w) 23 with hl | hl
  · have hnle : ¬(23 : ℤ) ≤ (Nat.log2 w : ℤ) := by omega
    rw [if_neg hnle]
    have ht : ((23 : ℤ) - (Nat.log2 w : ℤ)).toNat = 23 - Nat.log2 w := by omega
    rw [ht, rneInt_exact one_pos (Nat.mod_one _), Nat.div_one]
    have hne24 : ¬w * 2 ^ (23 - Nat.log2 w) = 2 ^ 24 := by omega
    rw [if_neg hne24]
  · have he : Nat.log2 w = 23 := by omega
    rw [he]
    have hle : (23 : ℤ) ≤ ((23 : ℕ) : ℤ) := by omega
    rw [if_pos hle]
    have ht : (((23 : ℕ) : ℤ) - 23).toNat = 0 := by omega
    rw [ht]
    have h1m : (1 : ℕ) * 2 ^ 0 = 1 := by norm_num
    rw [h1m, rneInt_exact one_pos (Nat.mod_one w), Nat.div_one]
    have hne24 : ¬w = 2 ^ 24 := by omega
    rw [if_neg hne24]
    norm_num

theorem f32ofNat_sig_pos {x : ℕ} (hx : 0 < x) : 0 < (f32ofNat x).sig := by
  have hne : x ≠ 0 := by omega
  unfold f32ofNat
  rw [if_neg hne]
  simp only [rne24]
  rw [qlog2_nat hx]
  by_cases hb : (23 : ℤ) ≤ (Nat.log2 x : ℤ)
  · rw [if_pos hb]
    simp only [one_mul]
    have hk : ((Nat.log2 x : ℤ) - 23).toNat ≤ Nat.log2 x := by omega
    have hple : 2 ^ ((Nat.log2 x : ℤ) - 23).toNat ≤ x :=
      le_trans (Nat.pow_le_pow_right (by norm_num) hk) (Nat.log2_self_le hne)
    have hd : 1 ≤ x / 2 ^ ((Nat.log2 x : ℤ) - 23).toNat :=
      (Nat.one_le_div_iff (by positivity)).mpr hple
    have hn := rneInt_ge_div x (2 ^ ((Nat.log2 x : ℤ) - 23).toNat)
    split_ifs with hcase
    · norm_num
    · show 0 < rneInt x (2 ^ ((Nat.log2 x : ℤ) - 23).toNat)
      omega
  · rw [if_neg hb]
    have hn := rneInt_ge_div (x * 2 ^ ((23 - (Nat.log2 x : ℤ)).toNat)) 1
    rw [Nat.div_one] at hn
    have hd : 0 < x * 2 ^ ((23 - (Nat.log2 x : ℤ)).toNat) := by positivity
    split_ifs with hcase
    · norm_num
    · show 0 < rneInt (x * 2 ^ ((23 - (Nat.log2 x : ℤ)).toNat)) 1
      omega

theorem f32div_self {v : F32} (hv : 0 < v.sig) : f32div v v = ⟨2 ^ 23, -23⟩ := by
  unfold f32div
  rw [if_neg (by omega), rne24_self hv]
  have he : (-23 : ℤ) + v.exp - v.exp = -23 := by ring
  simp [he]

theorem f32div_one {x : F32} (h1 : 2 ^ 23 ≤ x.sig) (h2 : x.sig < 2 ^ 24) :
    f32div x ⟨2 ^ 23, -23⟩ = x := by
  obtain ⟨s, e⟩ := x
  simp only at h1 h2
  unfold f32div
  rw [if_neg (by simp; omega)]
  simp only [rne24]
  rw [qlog2_sig h1 h2]
  have hc : ¬(23 : ℤ) ≤ 0 := by decide
  rw [if_neg hc]
  have ht : ((23 : ℤ) - 0).toNat = 23 := by decide
  rw [ht]
  have hr : rneInt (s * 2 ^ 23) (2 ^ 23) = s := by
    rw [rneInt_exact (by positivity) (Nat.mul_mod_left _ _), Nat.mul_div_cancel _ (by positivity)]
  rw [hr]
  have hne24 : ¬s = 2 ^ 24 := by omega
  rw [if_neg hne24]
  have he : (0 : ℤ) - 23 + e - (-23) = e := by ring
  simp [he]

theorem f32toU32_ofNat_small {w : ℕ} (h1 : 0 < w) (h2 : w < 2 ^ 24) :
    f32toU32 (f32ofNat w) = w := by
  rw [f32ofNat_small h1 h2]
  have hlog : Nat.log2 w ≤ 23 := by
    have := (Nat.log2_lt (by omega)).mpr h2
    omega
  have hW : (W32 : ℕ) = 4294967296 := rfl
  have hfl : f32floor ⟨w * 2 ^ (23 - Nat.log2 w), (Nat.log2 w : ℤ) - 23⟩ = w := by
    rcases Nat.lt_or_ge (Nat.log2 w) 23 with hl | hl
    · simp only [f32floor]
      have hneg : ¬(0 : ℤ) ≤ (Nat.log2 w : ℤ) - 23 := by omega
      rw [if_neg hneg]
      have ht : (-((Nat.log2 w : ℤ) - 23)).toNat = 23 - Nat.log2 w := by omega
      rw [ht]
      exact Nat.mul_div_cancel w (by positivity)
    · have he : Nat.log2 w = 23 := by omega
      rw [he]
      simp only [f32floor]
      have hpos0 : (0 : ℤ) ≤ ((23 : ℕ) : ℤ) - 23 := by omega
      rw [if_pos hpos0]
      have ht : (((23 : ℕ) : ℤ) - 23).toNat = 0 := by omega
      rw [ht]
      norm_num
  unfold f32toU32
  rw [hfl]
  exact min_eq_left (by omega)

theorem f32ofNat_sig_bounds {w : ℕ} (h1 : 0 < w) (h2 : w < 2 ^ 24) :
    2 ^ 23 ≤ (f32ofNat w).sig ∧ (f32ofNat w).sig < 2 ^ 24 := by
  rw [f32ofNat_small h1 h2]
  have hlog : Nat.log2 w ≤ 23 := by
    have := (Nat.log2_lt (by omega)).mpr h2
    omega
  constructor
  · have hlow : 2 ^ Nat.log2 w ≤ w := Nat.log2_self_le (by omega)
    calc (2 : ℕ) ^ 23 = 2 ^ Nat.log2 w * 2 ^ (23 - Nat.log2 w) := by
          rw [← pow_add]
          congr 1
          omega
      _ ≤ w * 2 ^ (23 - Nat.log2 w) := Nat.mul_le_mul_right _ hlow
  · have hw : w < 2 ^ (Nat.log2 w + 1) := Nat.lt_log2_self
    calc w * 2 ^ (23 - Nat.log2 w)
        < 2 ^ (Nat.log2 w + 1) * 2 ^ (23 - Nat.log2 w) :=
          mul_lt_mul_of_pos_right hw (by positivity)
      _ = 2 ^ 24 := by
          rw [← pow_add]
          congr 1
          omega

/-! ### C1: aspect-preserving resize in Portrait -/

/-- Portrait with preservation: the width is kept and the height comes from
the binary32 computation; the `height` argument plays no role. -/
theorem prepare_portrait_eq {g : Img} {w h : ℕ} {app : App}
    (ho : app.orient = .portrait) (hp : app.preserve_aspect = true) :
    prepare_image g w h app =
      ⟨w, f32toU32 (f32div (f32ofNat w) (f32div (f32ofNat g.width) (f32ofNat g.height)))⟩ := by
  simp [prepare_image, ho, hp]

/-- Landscape with preservation: the height is kept and the width comes
from the binary32 computation; the `width` argument plays no role. -/
theorem prepare_landscape_eq {g : Img} {w h : ℕ} {app : App}
    (ho : app.orient = .landscape) (hp : app.preserve_aspect = true) :
    prepare_image g w h app =
      ⟨f32toU32 (f32mul (f32ofNat h) (f32div (f32ofNat g.width) (f32ofNat g.height))), h⟩ := by
  simp [prepare_image, ho, hp]

/-- C1 fails as stated: a 1×7 source image at target width 1, Portrait,
preservation on, gets height 6 from the single-precision computation,
while the exact floor is `1 * 7 / 1 = 7` (the f32 quotient is
6.9999995…). -/
theorem prepare_image_exact_floor_fails :
    (prepare_image ⟨1, 7⟩ 1 50 { preserve_aspect := true }).height ≠ 1 * 7 / 1 ∧
      0 < (1 : ℕ) ∧ 0 < (7 : ℕ) ∧
      ({ preserve_aspect := true } : App).orient = .portrait := by decide

/-- C1 (amended).  In Portrait with preservation the normalized width is
the target width, and the height is the truncation toward zero of the
binary32 computation `w / (source width / source height)`; this agrees
with the exact `⌊w · height / width⌋` for square sources with targets
below `2^24`, but not in general (see the counterexample). -/
theorem prepare_image_portrait_preserve (g : Img) (w h : ℕ) (app : App)
    (ho : app.orient = .portrait) (hp : app.preserve_aspect = true) :
    prepare_image g w h app =
      ⟨w, f32toU32 (f32div (f32ofNat w) (f32div (f32ofNat g.width) (f32ofNat g.height)))⟩ ∧
    (g.width = g.height → 0 < g.width → 0 < w → w < 2 ^ 24 →
      (prepare_image g w h app).height = w * g.height / g.width) := by
  refine ⟨prepare_portrait_eq ho hp, fun hsq hgpos hwpos hw24 => ?_⟩
  rw [prepare_portrait_eq ho hp]
  have hhpos : 0 < g.height := hsq ▸ hgpos
  rw [hsq]
  have har : f32div (f32ofNat g.height) (f32ofNat g.height) = ⟨2 ^ 23, -23⟩ :=
    f32div_self (f32ofNat_sig_pos hhpos)
  simp only
  rw [har]
  obtain ⟨hb1, hb2⟩ := f32ofNat_sig_bounds hwpos hw24
  rw [f32div_one hb1 hb2, f32toU32_ofNat_small hwpos hw24, Nat.mul_div_cancel _ hhpos]

/-- Witness for C1: a square 3×3 source at target width 7. -/
theorem prepare_image_portrait_preserve_witness :
    (prepare_image ⟨3, 3⟩ 7 9 { preserve_aspect := true }).height = 7 * 3 / 3 := by
  have hth := prepare_image_portrait_preserve ⟨3, 3⟩ 7 9 { preserve_aspect := true } rfl rfl
  exact hth.2 rfl (by decide) (by decide) (by decide)

/-! ### C10: the cross-axis option does not influence the output -/

/-- The target-size option on the axis that aspect preservation derives:
`--height` in Portrait, `--width` in Landscape. -/
def setCross (a : App) (v : Option ℕ) : App :=
  match a.orient with
  | .portrait => { a with image_height := v }
  | .landscape => { a with image_width := v }

theorem continueRun_portrait_cross (a : App) (v1 v2 : Option ℕ)
    (ho : a.orient = .portrait) (hp : a.preserve_aspect = true) (images : List Img) :
    continueRun { a with image_height := v1 } images =
      continueRun { a with image_height := v2 } images := by
  cases images with
  | nil => rfl
  | cons i0 rest =>
    simp only [continueRun, prepare_portrait_eq, canvasDims, blitOk, placements, ho, hp]

theorem continueRun_landscape_cross (a : App) (v1 v2 : Option ℕ)
    (ho : a.orient = .landscape) (hp : a.preserve_aspect = true) (images : List Img) :
    continueRun { a with image_width := v1 } images =
      continueRun { a with image_width := v2 } images := by
  cases images with
  | nil => rfl
  | cons i0 rest =>
    simp only [continueRun, prepare_landscape_eq, canvasDims, blitOk, placements, ho, hp]

/-- C10.  With preservation enabled the whole outcome of the run (canvas,
copy positions, resized sizes, prompting, errors) is unchanged when only
the cross-axis size option is changed: `--height` in Portrait, `--width`
in Landscape. -/
theorem output_blind_to_cross_dim (a : App) (v1 v2 : Option ℕ)
    (entries : List Entry) (input : String) (hp : a.preserve_aspect = true) :
    runCollage (setCross a v1) entries input = runCollage (setCross a v2) entries input := by
  cases ho : a.orient with
  | portrait =>
    have hc := continueRun_portrait_cross a v1 v2 ho hp
    simp only [ho] at hc
    simp only [runCollage, setCross, ho]
    simp only [hc]
  | landscape =>
    have hc := continueRun_landscape_cross a v1 v2 ho hp
    simp only [ho] at hc
    simp only [runCollage, setCross, ho]
    simp only [hc]

/-- Witness for C10: one 10×10 image, Portrait, preservation on, heights
40 vs 99. -/
theorem output_blind_to_cross_dim_witness :
    runCollage (setCross { preserve_aspect := true } (some 40))
        [⟨"a.png", some 1, some ⟨10, 10⟩⟩] "" =
      runCollage (setCross { preserve_aspect := true } (some 99))
        [⟨"a.png", some 1, some ⟨10, 10⟩⟩] "" :=
  output_blind_to_cross_dim { preserve_aspect := true } (some 40) (some 99)
    [⟨"a.png", some 1, some ⟨10, 10⟩⟩] "" rfl

end Collage
